import Mathlib

/-
Verification of the Low-rank-regularization training pipeline.

This file gives a shallow embedding, in Lean 4, of the numerical and
control-flow logic of the repository's five source files:
  - training/ERMSolver.py        (ERM training, bias-score saving, generalized CE loss)
  - training/OversampleSolver.py (pseudo-label ensembling, oversampled linear evaluation)
  - training/SimCLRSolver.py     (InfoNCE / SimSiam / VICReg losses, contrastive training)
  - data_aug/celebA.py           (biased CelebA split construction)
  - models/resnet_simclr.py      (ResNet with auxiliary heads)

Tensors are modelled as lists (of lists) of exact numbers: rationals where the
claims are purely structural, and real numbers where the code computes with
softmax / exp / sqrt.  Machine-float NaN is modelled by an explicit `nan`
constructor (`FVal`) where a claim is about the NaN sanity checks.  Fallible
code is modelled with `Except`.
-/

set_option maxHeartbeats 1000000

namespace LowRankReg

/-! ## Definitions: CelebA split construction (data_aug/celebA.py) -/

/-- Embeds `num_train = int(0.8 * num_total)` from `BiasedCelebASplit.__init__`
(data_aug/celebA.py line 59).  Python truncates the float product toward zero;
since the double closest to 0.8 lies just above 4/5 and the rounding error of
the product is far below the distance to the next integer, the truncated value
is the floor of 4n/5 for every dataset size in range. -/
def numTrainSplit (numTotal : ℕ) : ℕ := (4 * numTotal) / 5

/-- Embeds the split-selection branch of `BiasedCelebASplit.__init__`
(data_aug/celebA.py lines 50-67): the saved random permutation
`rand_indices` is sliced as `rand_indices[:num_train]` for split `'train'`
and `rand_indices[num_train:]` for split `'valid'`. -/
def celebaSplitSel (split : String) (randIndices : List ℕ) : List ℕ :=
  let numTrain := numTrainSplit randIndices.length
  if split = "train" then randIndices.take numTrain
  else if split = "valid" then randIndices.drop numTrain
  else randIndices

/-- Embeds the `target_attr` dispatch of `BiasedCelebASplit.__init__`
(data_aug/celebA.py lines 26-48): `'blonde'` selects target index 9,
`'makeup'` selects target index 18, anything else raises `AttributeError`. -/
def celebaTargetAttrCheck (targetAttr : String) : Except String ℕ :=
  if targetAttr = "blonde" then Except.ok 9
  else if targetAttr = "makeup" then Except.ok 18
  else Except.error ("AttributeError")

/-! ## Definitions: SimCLRResNet.forward (models/resnet_simclr.py) -/

/-- Embeds `SimCLRResNet.forward` (models/resnet_simclr.py lines 94-116),
abstracted to the keys of the returned `aux` dictionary.  The
`assert penultimate or simclr` on line 96 is modelled as an error result;
otherwise the keys are inserted in source order: `'penultimate'` when
`penultimate`, `'simclr'` when `simclr`, `'simsiam_prj'` and `'simsiam_pred'`
when `simsiam`, `'vicReg'` when `vicReg`. -/
def simclrResNetForwardKeys (penultimate simclr simsiam vicReg : Bool) :
    Except Unit (List String) :=
  if penultimate || simclr then
    Except.ok ((if penultimate then ["penultimate"] else []) ++
      (if simclr then ["simclr"] else []) ++
      (if simsiam then ["simsiam_prj", "simsiam_pred"] else []) ++
      (if vicReg then ["vicReg"] else []))
  else Except.error ()

/-! ## Definitions: oversampling weights (OversampleSolver.py / ERMSolver.py) -/

/-- Embeds the sampling-weight computation shared by
`OversampleSolver.train_with_oversampling` (training/OversampleSolver.py
lines 79-89) and the matching branch of `ERMSolver.__init__`
(training/ERMSolver.py lines 61-73):
`upweight = ones_like(wrong_label)`; when `finetune` is enabled, entries whose
index is not in the loaded subset-index file are set to 0; afterwards
`upweight[wrong_label == 1] = lambda_upweight`. -/
def computeUpweight (finetune : Bool) (lambdaUpweight : ℚ) (subsetIndices : List ℕ)
    (wrongLabel : List ℚ) : List ℚ :=
  let u0 : List ℚ := wrongLabel.map (fun _ => 1)
  let u1 : List ℚ :=
    if finetune then u0.enum.map (fun p => if p.1 ∈ subsetIndices then p.2 else 0) else u0
  (wrongLabel.zip u1).map (fun p => if p.1 = 1 then lambdaUpweight else p.2)

/-- Embeds the explicit-error control flow of
`OversampleSolver.train_with_oversampling` (training/OversampleSolver.py
lines 51-77): a `ValueError` is raised when an `oversample_pth` argument is
given but the file does not exist, and again (from the `except` handler) when
loading the pretrained SimCLR checkpoint or the existence assertion on the
pseudo-label file fails.  File-system facts are abstracted as booleans. -/
def trainWithOversamplingCheck (oversamplePthGiven oversamplePthExists
    ckptLoadOk finalPthExists : Bool) : Except String Unit :=
  if oversamplePthGiven then
    if oversamplePthExists = false then Except.error ("ValueError")
    else if ckptLoadOk && oversamplePthExists then Except.ok ()
    else Except.error ("ValueError")
  else
    if ckptLoadOk && finalPthExists then Except.ok ()
    else Except.error ("ValueError")

/-! ## Definitions: training-loop traces (SimCLRSolver.py / ERMSolver.py) -/

/-- Observable events of the training loops: checkpoint saves (step and token),
validation runs, and bias-score saves. -/
inductive TrainEvent where
  | ckptSave : ℕ → String → TrainEvent
  | validate : ℕ → TrainEvent
  | scoreSave : ℕ → TrainEvent
  deriving DecidableEq

/-- Checkpoint events emitted at the end of epoch `epoch` (0-based) of
`SimCLRSolver.contrastive_train` (training/SimCLRSolver.py lines 270-271):
`if (epoch_counter + 1) % save_every == 0: save(step=epoch_counter+1,
token='biased_simclr')`. -/
def simclrEpochEvents (saveEvery epoch : ℕ) : List TrainEvent :=
  if (epoch + 1) % saveEvery = 0 then [TrainEvent.ckptSave (epoch + 1) ("biased_simclr")]
  else []

/-- Checkpoint trace of `SimCLRSolver.contrastive_train`
(training/SimCLRSolver.py lines 191-277): the per-epoch conditional saves,
followed by the unconditional final save at
`step = epoch_counter + 1 = simclr_epochs` (line 275). -/
def contrastiveTrainTrace (simclrEpochs saveEvery : ℕ) : List TrainEvent :=
  (List.range simclrEpochs).flatMap (simclrEpochEvents saveEvery) ++
    [TrainEvent.ckptSave simclrEpochs ("biased_simclr")]

/-- Events emitted during epoch `epoch` of `ERMSolver.train`
(training/ERMSolver.py lines 265-325): validation after every epoch
(lines 309-322), then `save_score_idx` when `oversample_pth is None`
(lines 324-325). -/
def ermEpochEvents (oversamplePthNone : Bool) (epoch : ℕ) : List TrainEvent :=
  TrainEvent.validate epoch ::
    (if oversamplePthNone then [TrainEvent.scoreSave epoch] else [])

/-- Validation/checkpoint trace of `ERMSolver.train` (training/ERMSolver.py
lines 252-332): per-epoch events, followed by the single checkpoint save at
`step = epoch_counter + 1 = ERM_epochs` with token `'biased_ERM'` (line 330). -/
def ermTrainTrace (ermEpochs : ℕ) (oversamplePthNone : Bool) : List TrainEvent :=
  (List.range ermEpochs).flatMap (ermEpochEvents oversamplePthNone) ++
    [TrainEvent.ckptSave ermEpochs ("biased_ERM")]

/-- Recognizes checkpoint-save events. -/
def isCkptSave : TrainEvent → Bool
  | TrainEvent.ckptSave _ _ => true
  | _ => false

/-! ## Definitions: bias-score saving (ERMSolver.save_score_idx) -/

/-- One sample as yielded by the training loader inside
`ERMSolver.save_score_idx` (training/ERMSolver.py line 346): the classifier
logits computed for the image, the ground-truth label, the bias label, and the
dataset index. -/
structure Sample where
  logits : List ℝ
  label : ℕ
  biasLabel : ℕ
  idx : ℕ

/-- Embeds `nn.Softmax()(logits)[torch.arange(logits.size(0)), labels]`
(training/ERMSolver.py line 358) for a single row: `nn.Softmax()` on a 2-D
input uses the implicit dim 1, so the probability of class `label` is
`exp(logits[label]) / sum_j exp(logits[j])`. -/
noncomputable def softmaxProb (logits : List ℝ) (label : ℕ) : ℝ :=
  Real.exp (logits.getD label 0) / (logits.map Real.exp).sum

/-- Embeds `logits.data.max(1, keepdim=True)[1]` (training/ERMSolver.py
line 362) for a single row: the index of the first entry attaining the
maximum. -/
noncomputable def argmaxIdx (logits : List ℝ) : ℕ :=
  (List.range logits.length).foldl
    (fun best j => if logits.getD best 0 < logits.getD j 0 then j else best) 0

/-- The three per-index tensors filled by `ERMSolver.save_score_idx`
(training/ERMSolver.py lines 341-343), modelled as functions from dataset
index. -/
structure ScoreState where
  score : ℕ → ℝ
  wrong : ℕ → ℝ
  debias : ℕ → ℝ

/-- `torch.zeros(num_data)` initial state (training/ERMSolver.py
lines 341-343). -/
noncomputable def initScoreState : ScoreState :=
  { score := fun _ => 0, wrong := fun _ => 0, debias := fun _ => 0 }

/-- Embeds the per-sample body of the loop in `ERMSolver.save_score_idx`
(training/ERMSolver.py lines 357-371): at the sample's dataset index, record
`bias_score = 1 - bias_prob`, `wrong = (pred != labels).long()`, and
`debiased = (labels != bias_labels).float()`. -/
noncomputable def processSample (st : ScoreState) (s : Sample) : ScoreState :=
  { score := Function.update st.score s.idx (1 - softmaxProb s.logits s.label)
    wrong := Function.update st.wrong s.idx (if argmaxIdx s.logits ≠ s.label then 1 else 0)
    debias := Function.update st.debias s.idx (if s.label ≠ s.biasLabel then 1 else 0) }

/-- Embeds the full loop of `ERMSolver.save_score_idx`
(training/ERMSolver.py lines 346-373) over the flattened list of loader
samples. -/
noncomputable def saveScoreIdx (samples : List Sample) : ScoreState :=
  samples.foldl processSample initScoreState

/-! ## Definitions: pseudo-label ensembling (OversampleSolver.make_pseudo_label) -/

/-- Embeds the score-ensembling loop of `OversampleSolver.make_pseudo_label`
(training/OversampleSolver.py lines 19-29) at a fixed sample index `i`:
`score = load(score_file(0.))`; for each `ld` in `lambda_list`, skip `ld == 0`
and otherwise add `load(score_file(ld))`; finally divide by
`len(lambda_list)`.  `scoreFile ld i` is the bias score stored for sample `i`
in the score file written for rank-regularization weight `ld`. -/
def ensembleScore (scoreFile : ℚ → ℕ → ℚ) (lambdaList : List ℚ) (i : ℕ) : ℚ :=
  (lambdaList.foldl (fun acc ld => if ld = 0 then acc else acc + scoreFile ld i)
    (scoreFile 0 i)) / (lambdaList.length : ℚ)

/-- Embeds `pseudo_label = (score > self.args.cutoff).float()`
(training/OversampleSolver.py line 30) at a fixed sample index. -/
def makePseudoLabel (scoreFile : ℚ → ℕ → ℚ) (lambdaList : List ℚ) (cutoff : ℚ)
    (i : ℕ) : ℚ :=
  if ensembleScore scoreFile lambdaList i > cutoff then 1 else 0

/-! ## Definitions: float values with NaN, and the generalized CE loss -/

/-- A machine-float value as relevant to the NaN sanity checks of
`GeneralizedCELoss.forward`: either NaN or an ideal real number. -/
inductive FVal where
  | nan : FVal
  | val : ℝ → FVal

/-- NaN test (`np.isnan`). -/
def FVal.isNan : FVal → Bool
  | FVal.nan => true
  | FVal.val _ => false

/-- Addition with NaN propagation. -/
noncomputable def FVal.add : FVal → FVal → FVal
  | FVal.val x, FVal.val y => FVal.val (x + y)
  | _, _ => FVal.nan

/-- Subtraction with NaN propagation. -/
noncomputable def FVal.sub : FVal → FVal → FVal
  | FVal.val x, FVal.val y => FVal.val (x - y)
  | _, _ => FVal.nan

/-- Multiplication with NaN propagation. -/
noncomputable def FVal.mul : FVal → FVal → FVal
  | FVal.val x, FVal.val y => FVal.val (x * y)
  | _, _ => FVal.nan

/-- Division with NaN propagation. -/
noncomputable def FVal.div : FVal → FVal → FVal
  | FVal.val x, FVal.val y => FVal.val (x / y)
  | _, _ => FVal.nan

/-- Exponential with NaN propagation. -/
noncomputable def FVal.exp : FVal → FVal
  | FVal.val x => FVal.val (Real.exp x)
  | FVal.nan => FVal.nan

/-- Natural logarithm with NaN propagation. -/
noncomputable def FVal.log : FVal → FVal
  | FVal.val x => FVal.val (Real.log x)
  | FVal.nan => FVal.nan

/-- Negation with NaN propagation. -/
noncomputable def FVal.neg : FVal → FVal
  | FVal.val x => FVal.val (-x)
  | FVal.nan => FVal.nan

/-- Real-exponent power (`** q`) with NaN propagation. -/
noncomputable def FVal.rpow : FVal → ℝ → FVal
  | FVal.val x, q => FVal.val (x ^ q)
  | FVal.nan, _ => FVal.nan

/-- Sum of a list of float values (`torch.sum` semantics: NaN propagates). -/
noncomputable def FVal.listSum (l : List FVal) : FVal :=
  l.foldr FVal.add (FVal.val 0)

/-- Mean of a list of float values (`.mean()`). -/
noncomputable def FVal.listMean (l : List FVal) : FVal :=
  (FVal.listSum l).div (FVal.val (l.length : ℝ))

/-- Embeds `F.softmax(logits, dim=1)` (training/ERMSolver.py line 434) for one
row of logits. -/
noncomputable def softmaxF (row : List FVal) : List FVal :=
  row.map (fun x => (FVal.exp x).div (FVal.listSum (row.map FVal.exp)))

/-- Embeds `F.cross_entropy(logits, targets, reduction='none')`
(training/ERMSolver.py line 443) for one row: the negative log of the softmax
probability of the target class. -/
noncomputable def crossEntropyF (row : List FVal) (t : ℕ) : FVal :=
  FVal.neg (FVal.log ((softmaxF row).getD t FVal.nan))

/-- The gathered target-class probabilities
`Yg = torch.gather(p, 1, targets.unsqueeze(1))` (training/ERMSolver.py
line 437). -/
noncomputable def gceYg (logits : List (List FVal)) (targets : List ℕ) : List FVal :=
  ((logits.map softmaxF).zip targets).map (fun rt => rt.1.getD rt.2 FVal.nan)

/-- Embeds `GeneralizedCELoss.forward` (training/ERMSolver.py lines 433-445):
compute `p = softmax(logits)`, raise `NameError('GCE_p')` when `p.mean()` is
NaN; gather `Yg`, form `loss_weight = (Yg ** q) * q`, raise
`NameError('GCE_Yg')` when `Yg.mean()` is NaN; otherwise return the unreduced
cross-entropy multiplied elementwise by `loss_weight`. -/
noncomputable def gceForward (q : ℝ) (logits : List (List FVal)) (targets : List ℕ) :
    Except String (List FVal) :=
  if (FVal.listMean ((logits.map softmaxF).flatten)).isNan then Except.error ("GCE_p")
  else if (FVal.listMean (gceYg logits targets)).isNan then Except.error ("GCE_Yg")
  else
    Except.ok
      ((((logits.zip targets).map (fun rt => crossEntropyF rt.1 rt.2)).zip
        ((gceYg logits targets).map (fun y => (FVal.rpow y q).mul (FVal.val q)))).map
        (fun p2 => p2.1.mul p2.2))

/-! ## Definitions: InfoNCE loss (SimCLRSolver.info_nce_loss) -/

/-- Euclidean norm of a row vector. -/
noncomputable def l2norm (v : List ℝ) : ℝ :=
  Real.sqrt ((v.map (fun x => x ^ 2)).sum)

/-- Embeds `F.normalize(features, dim=1)` (training/SimCLRSolver.py line 114)
for one row: division by `max(norm, eps)` with the default `eps = 1e-12`. -/
noncomputable def normalizeRow (v : List ℝ) : List ℝ :=
  v.map (fun x => x / max (l2norm v) 1e-12)

/-- Dot product of two row vectors. -/
noncomputable def dotp (u v : List ℝ) : ℝ :=
  ((u.zip v).map (fun p => p.1 * p.2)).sum

/-- Embeds `labels = torch.cat([torch.arange(batch_size) for i in
range(n_views)])` (training/SimCLRSolver.py line 110). -/
def nceLabels (batchSize nViews : ℕ) : List ℕ :=
  (List.range nViews).flatMap (fun _ => List.range batchSize)

/-- Embeds the logits construction of `SimCLRSolver.info_nce_loss`
(training/SimCLRSolver.py lines 109-137).  The boolean-mask selections
`labels[~mask].view(N, -1)`, `similarity_matrix[labels.bool()].view(N, -1)`
and `similarity_matrix[~labels.bool()].view(N, -1)` select entries in
row-major order and keep a constant count per row, so they are modelled per
row: row `i` first lists, in index order, the similarities to the positions
`j ≠ i` carrying the same arange label, then those carrying a different
label; every entry is divided by the temperature. -/
noncomputable def infoNceLogits (batchSize nViews : ℕ) (temperature : ℝ)
    (features : List (List ℝ)) : List (List ℝ) :=
  (List.range features.length).map (fun i =>
    ((((List.range features.length).filter (fun j => j != i)).filter
        (fun j => (nceLabels batchSize nViews).getD j 0 ==
          (nceLabels batchSize nViews).getD i 0) ++
      ((List.range features.length).filter (fun j => j != i)).filter
        (fun j => !((nceLabels batchSize nViews).getD j 0 ==
          (nceLabels batchSize nViews).getD i 0))).map
      (fun j => dotp ((features.map normalizeRow).getD i [])
        ((features.map normalizeRow).getD j []) / temperature)))

/-- Embeds `labels = torch.zeros(logits.shape[0], dtype=torch.long)`
(training/SimCLRSolver.py line 134), the label vector returned with the
logits. -/
def infoNceLabelsOut (n : ℕ) : List ℕ := List.replicate n 0

/-- Cosine similarity of rows `i` and `j` of a feature matrix (the claim's
formulation, for comparison with the normalized dot products the code
computes). -/
noncomputable def cosineSim (features : List (List ℝ)) (i j : ℕ) : ℝ :=
  dotp (features.getD i []) (features.getD j []) /
    (l2norm (features.getD i []) * l2norm (features.getD j []))

/-! ## Definitions: VICReg loss (SimCLRSolver.vicReg_loss) -/

/-- Embeds `nn.MSELoss()(z_1, z_2)` (training/SimCLRSolver.py line 162): the
mean of the squared entrywise differences, i.e. their sum divided by the
number of elements. -/
noncomputable def mseLoss (z1 z2 : List (List ℝ)) : ℝ :=
  (((z1.zip z2).map
      (fun rr => ((rr.1.zip rr.2).map (fun p => (p.1 - p.2) ^ 2)).sum)).sum) /
    (((z1.map List.length).sum : ℕ) : ℝ)

/-- Column `j` of a matrix stored as a list of rows. -/
noncomputable def colVals (z : List (List ℝ)) (j : ℕ) : List ℝ :=
  z.map (fun r => r.getD j 0)

/-- Mean of a list of reals (`torch.mean`). -/
noncomputable def listMean (l : List ℝ) : ℝ := l.sum / (l.length : ℝ)

/-- Embeds `torch.var(·, dim=0)` for one column: the unbiased sample variance,
normalized by `n - 1`. -/
noncomputable def listVar (l : List ℝ) : ℝ :=
  ((l.map (fun x => (x - listMean l) ^ 2)).sum) / ((l.length : ℝ) - 1)

/-- Embeds `z - z.mean(dim=0)` (training/SimCLRSolver.py lines 165-166):
subtract the columnwise mean from every entry. -/
noncomputable def centerCols (z : List (List ℝ)) : List (List ℝ) :=
  z.map (fun r => r.enum.map (fun p => p.2 - listMean (colVals z p.1)))

/-- Embeds `(z.T @ z) / (b - 1)` (training/SimCLRSolver.py lines 172-173) for
a matrix whose rows have length `d`: the `d × d` matrix with entry `(j, k)`
equal to the column-`j`/column-`k` inner product divided by `b - 1`. -/
noncomputable def covMat (z : List (List ℝ)) (d : ℕ) : List (List ℝ) :=
  (List.range d).map (fun j => (List.range d).map (fun k =>
    (((colVals z j).zip (colVals z k)).map (fun p => p.1 * p.2)).sum /
      ((z.length : ℝ) - 1)))

/-- Embeds `off_diagonal` (training/SimCLRSolver.py lines 185-189):
`x.flatten()[:-1].view(n - 1, n + 1)[:, 1:].flatten()`. -/
noncomputable def offDiagonal (x : List (List ℝ)) : List ℝ :=
  (List.range (x.length - 1)).flatMap (fun r =>
    (List.range x.length).map (fun c =>
      (x.flatten.dropLast).getD (r * (x.length + 1) + (c + 1)) 0))

/-- `F.relu`. -/
noncomputable def relu (x : ℝ) : ℝ := max x 0

/-- Embeds `SimCLRSolver.vicReg_loss` (training/SimCLRSolver.py
lines 156-182): split the batch at `b = shape[0] // 2`, MSE between the
halves; center each half columnwise, `std = sqrt(var(dim=0) + 0.0001)` and
`loss_std = mean(relu(1 - std_1))/2 + mean(relu(1 - std_2))/2`;
`cov = (z.T @ z)/(b-1)` on the centered halves and
`loss_cov = off_diagonal(cov_1).pow(2).sum()/dim +
off_diagonal(cov_2).pow(2).sum()/dim`; combine with the three lambda
hyperparameters. -/
noncomputable def vicRegLoss (lamPos lamStd lamCov : ℝ)
    (features : List (List ℝ)) : ℝ :=
  let b := features.length / 2
  let dim := (features.getD 0 []).length
  let z1 := features.take b
  let z2 := features.drop b
  let lossPos := mseLoss z1 z2
  let z1c := centerCols z1
  let z2c := centerCols z2
  let std1 := (List.range dim).map (fun j => Real.sqrt (listVar (colVals z1c j) + 0.0001))
  let std2 := (List.range dim).map (fun j => Real.sqrt (listVar (colVals z2c j) + 0.0001))
  let lossStd := listMean (std1.map (fun s => relu (1 - s))) / 2 +
    listMean (std2.map (fun s => relu (1 - s))) / 2
  let cov1 := covMat z1c dim
  let cov2 := covMat z2c dim
  let lossCov := ((offDiagonal cov1).map (fun x => x ^ 2)).sum / (dim : ℝ) +
    ((offDiagonal cov2).map (fun x => x ^ 2)).sum / (dim : ℝ)
  lossPos * lamPos + lossStd * lamStd + lossCov * lamCov

/-- The claim's formula for the VICReg loss (spec formulation, for comparison
with `vicRegLoss`): on a batch of `2 * b` rows of width `d`, writing
`e1 i j` and `e2 i j` for the entries of the two halves,
`lambda_vicReg_pos` times the mean squared error between the halves, plus
`lambda_vicReg_std` times the sum over both halves of
`mean_j(relu(1 - sqrt(columnwise variance + 0.0001))) / 2`, plus
`lambda_vicReg_cov` times the sum over both mean-centered halves of the
squared off-diagonal entries of `zᵀz/(b-1)` divided by `d`. -/
noncomputable def vicRegLossSpec (lamPos lamStd lamCov : ℝ) (b d : ℕ)
    (features : List (List ℝ)) : ℝ :=
  let e1 : ℕ → ℕ → ℝ := fun i j => (features.getD i []).getD j 0
  let e2 : ℕ → ℕ → ℝ := fun i j => (features.getD (b + i) []).getD j 0
  let mean1 : ℕ → ℝ := fun j => (∑ i ∈ Finset.range b, e1 i j) / (b : ℝ)
  let mean2 : ℕ → ℝ := fun j => (∑ i ∈ Finset.range b, e2 i j) / (b : ℝ)
  let var1 : ℕ → ℝ := fun j =>
    (∑ i ∈ Finset.range b, (e1 i j - mean1 j) ^ 2) / ((b : ℝ) - 1)
  let var2 : ℕ → ℝ := fun j =>
    (∑ i ∈ Finset.range b, (e2 i j - mean2 j) ^ 2) / ((b : ℝ) - 1)
  let cov1 : ℕ → ℕ → ℝ := fun j k =>
    (∑ i ∈ Finset.range b, (e1 i j - mean1 j) * (e1 i k - mean1 k)) / ((b : ℝ) - 1)
  let cov2 : ℕ → ℕ → ℝ := fun j k =>
    (∑ i ∈ Finset.range b, (e2 i j - mean2 j) * (e2 i k - mean2 k)) / ((b : ℝ) - 1)
  (∑ i ∈ Finset.range b, ∑ j ∈ Finset.range d, (e1 i j - e2 i j) ^ 2) /
      ((b : ℝ) * (d : ℝ)) * lamPos +
    ((∑ j ∈ Finset.range d, relu (1 - Real.sqrt (var1 j + 0.0001))) / (d : ℝ) / 2 +
      (∑ j ∈ Finset.range d, relu (1 - Real.sqrt (var2 j + 0.0001))) / (d : ℝ) / 2) *
      lamStd +
    ((∑ p ∈ (Finset.range d ×ˢ Finset.range d).filter (fun p => p.1 ≠ p.2),
        cov1 p.1 p.2 ^ 2) / (d : ℝ) +
      (∑ p ∈ (Finset.range d ×ˢ Finset.range d).filter (fun p => p.1 ≠ p.2),
        cov2 p.1 p.2 ^ 2) / (d : ℝ)) * lamCov

/-! ## General helper lemmas -/

/-- Sum of a mapped `List.range` as a `Finset.range` sum. -/
theorem list_sum_map_range {M : Type} [AddCommMonoid M] (n : ℕ) (f : ℕ → M) :
    ((List.range n).map f).sum = ∑ i ∈ Finset.range n, f i := by
  induction n with
  | zero => simp
  | succ k ih => rw [List.range_succ, Finset.sum_range_succ]; simp [ih]

/-- Sum of a mapped list as a `Finset.range` sum over positions. -/
theorem list_sum_map_getD {α : Type} {M : Type} [AddCommMonoid M] (l : List α)
    (f : α → M) (d : α) :
    (l.map f).sum = ∑ i ∈ Finset.range l.length, f (l.getD i d) := by
  induction l with
  | nil => simp
  | cons a t ih =>
      rw [List.map_cons, List.sum_cons, List.length_cons, Finset.sum_range_succ']
      simp [ih, add_comm]

/-- `getD` of a mapped list at an in-bounds position. -/
theorem getD_map_of_lt {α β : Type} (l : List α) (f : α → β) (i : ℕ) (d : β) (d' : α)
    (h : i < l.length) : (l.map f).getD i d = f (l.getD i d') := by
  rw [List.getD_eq_getElem _ _ (by simpa using h), List.getD_eq_getElem _ _ h]
  simp

/-! ## C10: oversampling weight assignment -/

/-- Entrywise value of `computeUpweight`. -/
theorem computeUpweight_getD (finetune : Bool) (lam : ℚ) (subset : List ℕ)
    (wrong : List ℚ) (i : ℕ) (hi : i < wrong.length) :
    (computeUpweight finetune lam subset wrong).getD i 0 =
      if wrong.getD i 0 = 1 then lam
      else if finetune = true ∧ i ∉ subset then 0 else 1 := by
  have h1 : i < (wrong.map (fun _ => (1 : ℚ))).length := by simpa using hi
  cases finetune with
  | false =>
      have hz : i < (wrong.zip (wrong.map (fun _ => (1 : ℚ)))).length := by
        simp [List.length_zip]; omega
      simp only [computeUpweight, if_neg (by simp : ¬(False : Prop))]
      rw [List.getD_eq_getElem _ _ (by simpa using hz),
        List.getD_eq_getElem _ _ hi]
      simp
  | true =>
      have hel : i < ((wrong.map (fun _ => (1 : ℚ))).enum.map
          (fun p => if p.1 ∈ subset then p.2 else 0)).length := by
        simpa using hi
      have hz : i < (wrong.zip ((wrong.map (fun _ => (1 : ℚ))).enum.map
          (fun p => if p.1 ∈ subset then p.2 else 0))).length := by
        simp [List.length_zip]; omega
      simp only [computeUpweight, if_pos trivial]
      rw [List.getD_eq_getElem _ _ (by simpa using hz),
        List.getD_eq_getElem _ _ hi]
      simp [List.getElem_zip, List.getElem_enum]

/-- C10: when finetune is enabled, a sample whose wrong-label entry is 1
receives sampling weight `lambda_upweight` even when its index is outside the
loaded finetune subset, because the wrong-label assignment is applied after
the zeroing of out-of-subset indices; weight 0 is given exactly to the samples
outside the subset whose wrong-label entry is not 1. -/
theorem C10_upweight_order (finetune : Bool) (lam : ℚ) (subset : List ℕ)
    (wrong : List ℚ) (i : ℕ) (hi : i < wrong.length) :
    ((computeUpweight finetune lam subset wrong).getD i 0 =
      if wrong.getD i 0 = 1 then lam
      else if finetune = true ∧ i ∉ subset then 0 else 1) ∧
    (i ∉ subset → wrong.getD i 0 = 1 →
      (computeUpweight true lam subset wrong).getD i 0 = lam) ∧
    (lam ≠ 0 →
      ((computeUpweight true lam subset wrong).getD i 0 = 0 ↔
        (i ∉ subset ∧ ¬ wrong.getD i 0 = 1))) := by
  refine ⟨computeUpweight_getD finetune lam subset wrong i hi, ?_, ?_⟩
  · intro hsub hw
    rw [computeUpweight_getD true lam subset wrong i hi, if_pos hw]
  · intro hlam
    rw [computeUpweight_getD true lam subset wrong i hi]
    constructor
    · intro h
      by_cases hw : wrong.getD i 0 = 1
      · rw [if_pos hw] at h; exact absurd h hlam
      · rw [if_neg hw] at h
        by_cases hsub : i ∈ subset
        · rw [if_neg (by simp [hsub])] at h; exact absurd h one_ne_zero
        · exact ⟨hsub, hw⟩
    · rintro ⟨hsub, hw⟩
      rw [if_neg hw, if_pos ⟨rfl, hsub⟩]

/-- Witness for C10 at a concrete input. -/
theorem C10_upweight_order_witness :
    (((computeUpweight true 7 [] [1, 0]).getD 0 0 =
      if ([1, 0] : List ℚ).getD 0 0 = 1 then 7
      else if true = true ∧ 0 ∉ ([] : List ℕ) then 0 else 1) ∧
    ((0 : ℕ) ∉ ([] : List ℕ) → ([1, 0] : List ℚ).getD 0 0 = 1 →
      (computeUpweight true 7 [] [1, 0]).getD 0 0 = 7) ∧
    ((7 : ℚ) ≠ 0 →
      ((computeUpweight true 7 [] [1, 0]).getD 0 0 = 0 ↔
        ((0 : ℕ) ∉ ([] : List ℕ) ∧ ¬ ([1, 0] : List ℚ).getD 0 0 = 1)))) :=
  C10_upweight_order true 7 [] [1, 0] 0 (by decide)

/-! ## C9: SimCLRResNet.forward keys -/

/-- C9: a call with `penultimate = False` and `simclr = False` fails the
assertion; otherwise the returned dictionary holds exactly the keys of the
requested heads. -/
theorem C9_forward_keys (p s ss v : Bool) :
    (simclrResNetForwardKeys p s ss v = Except.error () ↔ (p = false ∧ s = false)) ∧
    (∀ keys, simclrResNetForwardKeys p s ss v = Except.ok keys →
      ∀ k, k ∈ keys ↔
        ((k = "penultimate" ∧ p = true) ∨ (k = "simclr" ∧ s = true) ∨
          ((k = "simsiam_prj" ∨ k = "simsiam_pred") ∧ ss = true) ∨
          (k = "vicReg" ∧ v = true))) := by
  cases p <;> cases s <;> cases ss <;> cases v <;>
    refine ⟨by simp [simclrResNetForwardKeys], fun keys hk => ?_⟩ <;>
    simp [simclrResNetForwardKeys] at hk <;>
    subst hk <;>
    intro k <;>
    simp <;>
    tauto

/-- Witness for C9 at a concrete input. -/
theorem C9_forward_keys_witness :
    ((simclrResNetForwardKeys true false true false = Except.error () ↔
      (true = false ∧ false = false)) ∧
    (∀ keys, simclrResNetForwardKeys true false true false = Except.ok keys →
      ∀ k, k ∈ keys ↔
        ((k = "penultimate" ∧ true = true) ∨ (k = "simclr" ∧ false = true) ∨
          ((k = "simsiam_prj" ∨ k = "simsiam_pred") ∧ true = true) ∨
          (k = "vicReg" ∧ false = true)))) :=
  C9_forward_keys true false true false

/-! ## C8: CelebA train/valid split partition -/

/-- C8: for the same saved random permutation, the `'train'` split takes the
first `int(0.8 * n)` entries and the `'valid'` split the rest, so the two
selections are disjoint and together cover the whole permutation. -/
theorem C8_celeba_split_partition (randIndices : List ℕ) (h : randIndices.Nodup) :
    celebaSplitSel "train" randIndices ++ celebaSplitSel "valid" randIndices =
      randIndices ∧
    List.Disjoint (celebaSplitSel "train" randIndices)
      (celebaSplitSel "valid" randIndices) ∧
    (∀ x, x ∈ randIndices ↔
      (x ∈ celebaSplitSel "train" randIndices ∨
        x ∈ celebaSplitSel "valid" randIndices)) := by
  have htr : celebaSplitSel "train" randIndices =
      randIndices.take (numTrainSplit randIndices.length) := by
    simp [celebaSplitSel]
  have hva : celebaSplitSel "valid" randIndices =
      randIndices.drop (numTrainSplit randIndices.length) := by
    simp [celebaSplitSel]
  refine ⟨?_, ?_, ?_⟩
  · rw [htr, hva, List.take_append_drop]
  · rw [htr, hva]; exact List.disjoint_take_drop h (le_refl _)
  · intro x
    rw [htr, hva]
    constructor
    · intro hx
      have hsplit := List.take_append_drop (numTrainSplit randIndices.length) randIndices
      rw [← hsplit] at hx
      exact List.mem_append.mp hx
    · rintro (h1 | h1)
      · exact List.mem_of_mem_take h1
      · exact List.mem_of_mem_drop h1

/-- Witness for C8 at a concrete permutation. -/
theorem C8_celeba_split_partition_witness :
    (celebaSplitSel "train" [2, 0, 1] ++ celebaSplitSel "valid" [2, 0, 1] =
      [2, 0, 1] ∧
    List.Disjoint (celebaSplitSel "train" [2, 0, 1])
      (celebaSplitSel "valid" [2, 0, 1]) ∧
    (∀ x, x ∈ ([2, 0, 1] : List ℕ) ↔
      (x ∈ celebaSplitSel "train" [2, 0, 1] ∨
        x ∈ celebaSplitSel "valid" [2, 0, 1]))) :=
  C8_celeba_split_partition [2, 0, 1] (by decide)

/-! ## C7: checkpointing and validation schedule -/

/-- Membership in the per-epoch checkpoint events of `contrastive_train`. -/
theorem mem_simclrEpochEvents (saveEvery e : ℕ) (ev : TrainEvent) :
    ev ∈ simclrEpochEvents saveEvery e ↔
      ((e + 1) % saveEvery = 0 ∧ ev = TrainEvent.ckptSave (e + 1) ("biased_simclr")) := by
  unfold simclrEpochEvents
  split
  case isTrue h => simp [h]
  case isFalse h => simp [h]

/-- C7: `contrastive_train` saves a checkpoint with token `'biased_simclr'`
after every epoch whose 1-based index is a multiple of `save_every` and once
more after the final epoch; `ERMSolver.train` runs validation after every
epoch and saves the checkpoint with token `'biased_ERM'` exactly once, after
the final epoch. -/
theorem C7_checkpoint_schedule (simclrEpochs saveEvery ermEpochs : ℕ) (ov : Bool)
    (h1 : 1 ≤ simclrEpochs) (h2 : 1 ≤ saveEvery) (h3 : 1 ≤ ermEpochs) :
    (∀ st tok,
      TrainEvent.ckptSave st tok ∈ contrastiveTrainTrace simclrEpochs saveEvery ↔
        (tok = "biased_simclr" ∧
          ((1 ≤ st ∧ st ≤ simclrEpochs ∧ st % saveEvery = 0) ∨ st = simclrEpochs))) ∧
    (contrastiveTrainTrace simclrEpochs saveEvery).getLast? =
      some (TrainEvent.ckptSave simclrEpochs ("biased_simclr")) ∧
    (∀ e, e < ermEpochs → TrainEvent.validate e ∈ ermTrainTrace ermEpochs ov) ∧
    (ermTrainTrace ermEpochs ov).filter isCkptSave =
      [TrainEvent.ckptSave ermEpochs ("biased_ERM")] ∧
    (ermTrainTrace ermEpochs ov).getLast? =
      some (TrainEvent.ckptSave ermEpochs ("biased_ERM")) := by
  refine ⟨?_, ?_, ?_, ?_, ?_⟩
  · intro st tok
    simp only [contrastiveTrainTrace, List.mem_append, List.mem_flatMap,
      List.mem_range, mem_simclrEpochEvents, List.mem_singleton,
      TrainEvent.ckptSave.injEq]
    constructor
    · rintro (⟨e, he, hm, rfl, rfl⟩ | ⟨rfl, rfl⟩)
      · exact ⟨rfl, Or.inl ⟨by omega, by omega, hm⟩⟩
      · exact ⟨rfl, Or.inr rfl⟩
    · rintro ⟨rfl, (⟨hs1, hs2, hmod⟩ | rfl)⟩
      · refine Or.inl ⟨st - 1, by omega, ?_, by omega, rfl⟩
        rw [Nat.sub_add_cancel hs1]; exact hmod
      · exact Or.inr ⟨rfl, rfl⟩
  · exact List.getLast?_concat _
  · intro e he
    simp only [ermTrainTrace, List.mem_append, List.mem_flatMap, List.mem_range]
    exact Or.inl ⟨e, he, by simp [ermEpochEvents]⟩
  · have hnil : ∀ l : List ℕ,
        ((l.flatMap (ermEpochEvents ov)).filter isCkptSave) = [] := by
      intro l
      induction l with
      | nil => rfl
      | cons a t ih =>
          rw [List.flatMap_cons, List.filter_append, ih]
          cases ov <;> simp [ermEpochEvents, isCkptSave]
    rw [ermTrainTrace, List.filter_append, hnil]
    simp [isCkptSave]
  · exact List.getLast?_concat _

/-- Witness for C7 at a concrete schedule. -/
theorem C7_checkpoint_schedule_witness :
    ((∀ st tok, TrainEvent.ckptSave st tok ∈ contrastiveTrainTrace 3 2 ↔
      (tok = "biased_simclr" ∧ ((1 ≤ st ∧ st ≤ 3 ∧ st % 2 = 0) ∨ st = 3))) ∧
    (contrastiveTrainTrace 3 2).getLast? =
      some (TrainEvent.ckptSave 3 ("biased_simclr")) ∧
    (∀ e, e < 2 → TrainEvent.validate e ∈ ermTrainTrace 2 true) ∧
    (ermTrainTrace 2 true).filter isCkptSave =
      [TrainEvent.ckptSave 2 ("biased_ERM")] ∧
    (ermTrainTrace 2 true).getLast? =
      some (TrainEvent.ckptSave 2 ("biased_ERM"))) :=
  C7_checkpoint_schedule 3 2 2 true (by decide) (by decide) (by decide)

/-! ## Generalized CE loss: error characterization and value -/

/-- `gceForward` signals an error exactly when one of the two NaN checks
fires. -/
theorem gceForward_isError_iff (q : ℝ) (logits : List (List FVal))
    (targets : List ℕ) :
    (∃ e, gceForward q logits targets = Except.error e) ↔
      ((FVal.listMean ((logits.map softmaxF).flatten)).isNan = true ∨
        (FVal.listMean (gceYg logits targets)).isNan = true) := by
  unfold gceForward
  split
  case isTrue h => exact ⟨fun _ => Or.inl h, fun _ => ⟨_, rfl⟩⟩
  case isFalse h =>
    split
    case isTrue h2 => exact ⟨fun _ => Or.inr h2, fun _ => ⟨_, rfl⟩⟩
    case isFalse h2 =>
      constructor
      · rintro ⟨e, he⟩
        simp at he
      · rintro (hc | hc)
        · exact absurd hc h
        · exact absurd hc h2

/-- Entrywise value of a successful `gceForward`. -/
theorem gceForward_ok_getD (q : ℝ) (logits : List (List FVal)) (targets : List ℕ)
    (hlen : targets.length = logits.length) (out : List FVal)
    (hout : gceForward q logits targets = Except.ok out) (i : ℕ)
    (hi : i < logits.length) :
    out.getD i FVal.nan =
      (crossEntropyF (logits.getD i []) (targets.getD i 0)).mul
        ((FVal.rpow ((softmaxF (logits.getD i [])).getD (targets.getD i 0) FVal.nan) q).mul
          (FVal.val q)) := by
  unfold gceForward at hout
  split at hout
  · exact absurd hout (by simp)
  · split at hout
    · exact absurd hout (by simp)
    · injection hout with hout
      subst hout
      have hti : i < targets.length := by omega
      have h1 : i < (((logits.zip targets).map (fun rt => crossEntropyF rt.1 rt.2)).zip
          ((gceYg logits targets).map (fun y => (FVal.rpow y q).mul (FVal.val q)))).length := by
        simp [List.length_zip, gceYg, hlen]
        exact hi
      rw [List.getD_eq_getElem _ _ (by simpa using h1),
        List.getD_eq_getElem logits [] hi, List.getD_eq_getElem targets 0 hti]
      simp [gceYg, List.getElem_map, List.getElem_zip,
        List.getD_eq_getElem targets 0 hti]

/-- C4: `GeneralizedCELoss.forward` raises exactly when the mean of the
softmax probabilities or the mean of the gathered target-class probabilities
is NaN; otherwise each returned entry is the unreduced cross-entropy of the
logits against the target multiplied by `q` times the target-class probability
raised to the power `q`. -/
theorem C4_gce_forward (q : ℝ) (logits : List (List FVal)) (targets : List ℕ)
    (hlen : targets.length = logits.length) :
    ((∃ e, gceForward q logits targets = Except.error e) ↔
      ((FVal.listMean ((logits.map softmaxF).flatten)).isNan = true ∨
        (FVal.listMean (gceYg logits targets)).isNan = true)) ∧
    (∀ out, gceForward q logits targets = Except.ok out →
      ∀ i, i < logits.length →
        out.getD i FVal.nan =
          (crossEntropyF (logits.getD i []) (targets.getD i 0)).mul
            ((FVal.rpow ((softmaxF (logits.getD i [])).getD (targets.getD i 0) FVal.nan) q).mul
              (FVal.val q))) :=
  ⟨gceForward_isError_iff q logits targets,
    fun out hout i hi => gceForward_ok_getD q logits targets hlen out hout i hi⟩

/-- Witness for C4 at a concrete input. -/
theorem C4_gce_forward_witness :
    (((∃ e, gceForward (7 / 10) [[FVal.val 0, FVal.val 0]] [0] = Except.error e) ↔
      ((FVal.listMean (([[FVal.val 0, FVal.val 0]].map softmaxF).flatten)).isNan = true ∨
        (FVal.listMean (gceYg [[FVal.val 0, FVal.val 0]] [0])).isNan = true)) ∧
    (∀ out, gceForward (7 / 10) [[FVal.val 0, FVal.val 0]] [0] = Except.ok out →
      ∀ i, i < ([[FVal.val 0, FVal.val 0]] : List (List FVal)).length →
        out.getD i FVal.nan =
          (crossEntropyF (([[FVal.val 0, FVal.val 0]] : List (List FVal)).getD i [])
              (([0] : List ℕ).getD i 0)).mul
            ((FVal.rpow ((softmaxF (([[FVal.val 0, FVal.val 0]] :
                List (List FVal)).getD i [])).getD (([0] : List ℕ).getD i 0)
                FVal.nan) (7 / 10)).mul
              (FVal.val (7 / 10))))) :=
  C4_gce_forward (7 / 10) [[FVal.val 0, FVal.val 0]] [0] rfl

/-! ## C3: explicit error sites -/

/-- C3 (amended): besides the NaN sanity checks of `GeneralizedCELoss.forward`,
the repository raises explicitly in `OversampleSolver.train_with_oversampling`
(two `ValueError` sites) and in `BiasedCelebASplit.__init__` (an
`AttributeError` for an unknown target attribute); each site fires exactly
under the stated condition. -/
theorem C3_explicit_error_sites :
    (∀ a : String, celebaTargetAttrCheck a = Except.error ("AttributeError") ↔
      (a ≠ "blonde" ∧ a ≠ "makeup")) ∧
    (∀ pg pe ck fe : Bool,
      trainWithOversamplingCheck pg pe ck fe = Except.error ("ValueError") ↔
        ((pg = true ∧ pe = false) ∨ (pg = true ∧ pe = true ∧ ck = false) ∨
          (pg = false ∧ (ck = false ∨ fe = false)))) ∧
    (∀ (q : ℝ) (logits : List (List FVal)) (targets : List ℕ),
      (∃ e, gceForward q logits targets = Except.error e) ↔
        ((FVal.listMean ((logits.map softmaxF).flatten)).isNan = true ∨
          (FVal.listMean (gceYg logits targets)).isNan = true)) := by
  refine ⟨?_, ?_, gceForward_isError_iff⟩
  · intro a
    by_cases hb : a = "blonde"
    · simp [celebaTargetAttrCheck, hb]
    · by_cases hm : a = "makeup" <;> simp [celebaTargetAttrCheck, hb, hm]
  · intro pg pe ck fe
    cases pg <;> cases pe <;> cases ck <;> cases fe <;>
      simp [trainWithOversamplingCheck]

/-- C3 counterexample: constructing `BiasedCelebASplit` with an unknown target
attribute raises `AttributeError` — an explicit raise outside the generalized
CE loss, contradicting the claim that no other operation raises. -/
theorem C3_celeba_raises_counterexample :
    celebaTargetAttrCheck ("gender") = Except.error ("AttributeError") := rfl

/-! ## C1: bias score and wrong flag recorded per dataset index -/

/-- Samples whose dataset index is never written leave the state untouched. -/
theorem foldl_process_not_mem (samples : List Sample) (v : ℕ) :
    ∀ st : ScoreState, v ∉ samples.map Sample.idx →
      ((samples.foldl processSample st).score v = st.score v ∧
        (samples.foldl processSample st).wrong v = st.wrong v) := by
  induction samples with
  | nil => intro st _; exact ⟨rfl, rfl⟩
  | cons a t ih =>
      intro st hv
      simp only [List.map_cons, List.mem_cons, not_or] at hv
      obtain ⟨hva, hvt⟩ := hv
      rw [List.foldl_cons]
      obtain ⟨hs, hw⟩ := ih (processSample st a) hvt
      constructor
      · rw [hs]; exact Function.update_noteq hva _ _
      · rw [hw]; exact Function.update_noteq hva _ _

/-- Under distinct dataset indices, the loop records for every sample the
values computed from its own logits. -/
theorem foldl_process_mem (samples : List Sample) (s : Sample) :
    ∀ st : ScoreState, s ∈ samples → (samples.map Sample.idx).Nodup →
      ((samples.foldl processSample st).score s.idx =
          1 - softmaxProb s.logits s.label ∧
        (samples.foldl processSample st).wrong s.idx =
          (if argmaxIdx s.logits ≠ s.label then 1 else 0)) := by
  induction samples with
  | nil => intro st hs _; exact absurd hs (List.not_mem_nil s)
  | cons a t ih =>
      intro st hs hd
      rw [List.map_cons, List.nodup_cons] at hd
      obtain ⟨hda, hdt⟩ := hd
      rcases List.mem_cons.mp hs with rfl | hmem
      · rw [List.foldl_cons]
        obtain ⟨hsc, hwr⟩ := foldl_process_not_mem t s.idx (processSample st s) hda
        constructor
        · rw [hsc]; exact Function.update_same _ _ _
        · rw [hwr]; exact Function.update_same _ _ _
      · rw [List.foldl_cons]
        exact ih (processSample st a) hmem hdt

/-- C1: for every sample processed by `save_score_idx` (dataset indices being
distinct), the bias score recorded at the sample's dataset index is `1` minus
the softmax probability of the ground-truth label, and the wrong flag at that
index is `1` exactly when the argmax prediction differs from the ground-truth
label, `0` otherwise. -/
theorem C1_save_score_idx (samples : List Sample) (s : Sample) (hs : s ∈ samples)
    (hd : (samples.map Sample.idx).Nodup) :
    (saveScoreIdx samples).score s.idx =
      1 - Real.exp (s.logits.getD s.label 0) /
        (∑ j ∈ Finset.range s.logits.length, Real.exp (s.logits.getD j 0)) ∧
    ((saveScoreIdx samples).wrong s.idx = 1 ↔ argmaxIdx s.logits ≠ s.label) ∧
    ((saveScoreIdx samples).wrong s.idx = 0 ↔ argmaxIdx s.logits = s.label) := by
  unfold saveScoreIdx
  obtain ⟨h1, h2⟩ := foldl_process_mem samples s initScoreState hs hd
  refine ⟨?_, ?_, ?_⟩
  · rw [h1]
    unfold softmaxProb
    rw [list_sum_map_getD s.logits Real.exp 0]
  · rw [h2]
    by_cases hx : argmaxIdx s.logits ≠ s.label
    · simp [hx]
    · simp [hx]
  · rw [h2]
    by_cases hx : argmaxIdx s.logits = s.label
    · simp [hx]
    · simp [hx]

/-- Witness for C1 at a concrete batch. -/
theorem C1_save_score_idx_witness :
    ((saveScoreIdx [⟨[0, 0], 0, 1, 5⟩]).score 5 =
      1 - Real.exp (([0, 0] : List ℝ).getD 0 0) /
        (∑ j ∈ Finset.range ([0, 0] : List ℝ).length,
          Real.exp (([0, 0] : List ℝ).getD j 0)) ∧
    ((saveScoreIdx [⟨[0, 0], 0, 1, 5⟩]).wrong 5 = 1 ↔ argmaxIdx [0, 0] ≠ 0) ∧
    ((saveScoreIdx [⟨[0, 0], 0, 1, 5⟩]).wrong 5 = 0 ↔ argmaxIdx [0, 0] = 0)) :=
  C1_save_score_idx [⟨[0, 0], 0, 1, 5⟩] ⟨[0, 0], 0, 1, 5⟩ (by simp) (by simp)

/-! ## C2: pseudo-label ensembling -/

/-- The ensembling foldl adds exactly the scores of the non-zero lambdas. -/
theorem foldl_skip_zero (f : ℚ → ℚ) (l : List ℚ) (init : ℚ) :
    l.foldl (fun acc ld => if ld = 0 then acc else acc + f ld) init =
      init + ((l.filter (fun ld => !(ld == 0))).map f).sum := by
  induction l generalizing init with
  | nil => simp
  | cons a t ih =>
      by_cases ha : a = 0
      · simp [ha, ih]
      · simp only [List.foldl_cons, if_neg ha, List.filter_cons]
        rw [ih]
        simp [ha, add_assoc]

/-- A mapped list sum splits along a boolean filter. -/
theorem map_sum_filter_split {α M : Type} [AddCommMonoid M] (p : α → Bool)
    (f : α → M) (l : List α) :
    (l.map f).sum =
      ((l.filter p).map f).sum + ((l.filter (fun a => !(p a))).map f).sum := by
  induction l with
  | nil => simp
  | cons a t ih =>
      cases hp : p a <;> simp [List.filter_cons, hp, ih] <;> abel

/-- C2: `make_pseudo_label` computes the arithmetic mean of the per-lambda
bias scores (the file for lambda 0 loaded once, each non-zero lambda added,
divided by the length of `lambda_list`), and assigns pseudo label 1 exactly
when this mean strictly exceeds the cutoff. -/
theorem C2_make_pseudo_label (scoreFile : ℚ → ℕ → ℚ) (lambdaList : List ℚ)
    (cutoff : ℚ) (i : ℕ) (hcount : lambdaList.count 0 = 1) :
    ensembleScore scoreFile lambdaList i =
      ((lambdaList.map (fun ld => scoreFile ld i)).sum) / (lambdaList.length : ℚ) ∧
    (makePseudoLabel scoreFile lambdaList cutoff i = 1 ↔
      (lambdaList.map (fun ld => scoreFile ld i)).sum / (lambdaList.length : ℚ) >
        cutoff) ∧
    (makePseudoLabel scoreFile lambdaList cutoff i = 0 ↔
      ¬((lambdaList.map (fun ld => scoreFile ld i)).sum / (lambdaList.length : ℚ) >
        cutoff)) := by
  have key : ensembleScore scoreFile lambdaList i =
      ((lambdaList.map (fun ld => scoreFile ld i)).sum) / (lambdaList.length : ℚ) := by
    unfold ensembleScore
    rw [foldl_skip_zero]
    congr 1
    rw [map_sum_filter_split (fun ld => ld == 0) (fun ld => scoreFile ld i) lambdaList,
      List.filter_beq lambdaList 0, hcount]
    simp
  refine ⟨key, ?_, ?_⟩
  · unfold makePseudoLabel
    rw [key]
    by_cases hc : (lambdaList.map (fun ld => scoreFile ld i)).sum /
        (lambdaList.length : ℚ) > cutoff
    · simp [hc]
    · simp [hc]
  · unfold makePseudoLabel
    rw [key]
    by_cases hc : (lambdaList.map (fun ld => scoreFile ld i)).sum /
        (lambdaList.length : ℚ) > cutoff
    · simp [hc]
    · simp [hc]

/-- Witness for C2 at a concrete lambda list and score files. -/
theorem C2_make_pseudo_label_witness :
    (ensembleScore (fun _ _ => (1 : ℚ)) [0, 1] 0 =
      ((([0, 1] : List ℚ).map (fun _ => (1 : ℚ))).sum) / (([0, 1] : List ℚ).length : ℚ) ∧
    (makePseudoLabel (fun _ _ => (1 : ℚ)) [0, 1] 0 0 = 1 ↔
      (([0, 1] : List ℚ).map (fun _ => (1 : ℚ))).sum / (([0, 1] : List ℚ).length : ℚ) >
        0) ∧
    (makePseudoLabel (fun _ _ => (1 : ℚ)) [0, 1] 0 0 = 0 ↔
      ¬((([0, 1] : List ℚ).map (fun _ => (1 : ℚ))).sum / (([0, 1] : List ℚ).length : ℚ) >
        0))) :=
  C2_make_pseudo_label (fun _ _ => (1 : ℚ)) [0, 1] 0 0 (by decide)

/-! ## C5: InfoNCE logits -/

/-- Length of the arange-concatenation label vector. -/
theorem nceLabels_length (B nv : ℕ) : (nceLabels B nv).length = nv * B := by
  simp only [nceLabels]
  induction nv with
  | zero => simp
  | succ k ih =>
      rw [List.range_succ, List.flatMap_append, List.length_append, ih]
      simp [Nat.succ_mul]

/-- The arange-concatenation label of position `i` is `i % batch_size`. -/
theorem nceLabels_getD (B nv : ℕ) : ∀ i, i < nv * B →
    (nceLabels B nv).getD i 0 = i % B := by
  induction nv with
  | zero => intro i hi; omega
  | succ k ih =>
      intro i hi
      have hsplit : nceLabels B (k + 1) = nceLabels B k ++ List.range B := by
        simp only [nceLabels]
        rw [List.range_succ, List.flatMap_append]
        simp
      rw [hsplit]
      by_cases hik : i < k * B
      · rw [List.getD_append _ _ _ _ (by rw [nceLabels_length]; exact hik)]
        exact ih i hik
      · have hi' : i < k * B + B := by
          have h := hi
          rw [add_mul, one_mul] at h
          exact h
        have hrange : i - k * B < B := by omega
        rw [List.getD_append_right _ _ _ _ (by rw [nceLabels_length]; omega),
          nceLabels_length, List.getD_eq_getElem _ _ (by simpa using hrange)]
        simp only [List.getElem_range]
        conv_rhs => rw [show i = (i - k * B) + k * B by omega]
        rw [Nat.add_mul_mod_self_right, Nat.mod_eq_of_lt hrange]

/-- Dot product after head-to-head cons. -/
theorem dotp_cons (x y : ℝ) (t w : List ℝ) :
    dotp (x :: t) (y :: w) = x * y + dotp t w := rfl

/-- Dot product of two entrywise-divided rows. -/
theorem dotp_map_div (u : List ℝ) : ∀ (v : List ℝ) (a b : ℝ),
    dotp (u.map (fun x => x / a)) (v.map (fun x => x / b)) = dotp u v / (a * b) := by
  induction u with
  | nil => intro v a b; simp [dotp]
  | cons x t ih =>
      intro v a b
      cases v with
      | nil => simp [dotp]
      | cons y w =>
          simp only [List.map_cons, dotp_cons]
          rw [ih w a b, div_mul_div_comm, div_add_div_same]

/-- `F.normalize`d rows have the cosine similarity as dot product, provided
both norms reach the `eps` floor. -/
theorem dotp_normalizeRow (u v : List ℝ) (hu : (1e-12 : ℝ) ≤ l2norm u)
    (hv : (1e-12 : ℝ) ≤ l2norm v) :
    dotp (normalizeRow u) (normalizeRow v) = dotp u v / (l2norm u * l2norm v) := by
  unfold normalizeRow
  rw [max_eq_left hu, max_eq_left hv, dotp_map_div]

/-- C5: the labels returned by `info_nce_loss` are all zero, and row `i` of
the returned logits lists the cosine similarities of sample `i` to its
positive views (other positions with the same arange label, i.e. equal index
modulo the batch size) followed by its similarities to all negatives, the
diagonal excluded and every entry divided by the temperature. -/
theorem C5_info_nce (B nv : ℕ) (temp : ℝ) (features : List (List ℝ))
    (hN : features.length = nv * B)
    (hnorm : ∀ v ∈ features, (1e-12 : ℝ) ≤ l2norm v) (i : ℕ)
    (hi : i < features.length) :
    (infoNceLabelsOut features.length).getD i 1 = 0 ∧
    (infoNceLogits B nv temp features).getD i [] =
      (((List.range features.length).filter
          (fun j => j != i && (j % B == i % B))).map
        (fun j => cosineSim features i j / temp)) ++
      (((List.range features.length).filter
          (fun j => j != i && !(j % B == i % B))).map
        (fun j => cosineSim features i j / temp)) := by
  constructor
  · rw [infoNceLabelsOut, List.getD_eq_getElem _ _ (by simpa using hi)]
    simp
  · have hmem : ∀ j, j < features.length → features.getD j [] ∈ features := by
      intro j hj
      rw [List.getD_eq_getElem _ _ hj]
      exact List.getElem_mem hj
    have hlabel : ∀ j, j < features.length →
        ((nceLabels B nv).getD j 0 == (nceLabels B nv).getD i 0) =
          (j % B == i % B) := by
      intro j hj
      rw [nceLabels_getD B nv j (by omega), nceLabels_getD B nv i (by omega)]
    have hsim : ∀ j, j < features.length →
        dotp ((features.map normalizeRow).getD i [])
            ((features.map normalizeRow).getD j []) = cosineSim features i j := by
      intro j hj
      rw [getD_map_of_lt features normalizeRow i [] [] hi,
        getD_map_of_lt features normalizeRow j [] [] hj]
      unfold cosineSim
      exact dotp_normalizeRow _ _ (hnorm _ (hmem i hi)) (hnorm _ (hmem j hj))
    have hri : (List.range features.length).getD i 0 = i := by
      rw [List.getD_eq_getElem _ _ (by simpa using hi)]
      simp
    rw [infoNceLogits,
      getD_map_of_lt (List.range features.length) _ i [] 0 (by simpa using hi), hri,
      List.map_append]
    congr 1
    · have hc1 : ∀ j ∈ List.range features.length,
          (((nceLabels B nv).getD j 0 == (nceLabels B nv).getD i 0) && (j != i)) =
            (j != i && (j % B == i % B)) := by
        intro j hj
        rw [List.mem_range] at hj
        rw [hlabel j hj, Bool.and_comm]
      rw [List.filter_filter, List.filter_congr hc1]
      apply List.map_congr_left
      intro j hj
      have hjN : j < features.length := by
        have := (List.mem_filter.mp hj).1
        rwa [List.mem_range] at this
      rw [hsim j hjN]
    · have hc2 : ∀ j ∈ List.range features.length,
          ((!((nceLabels B nv).getD j 0 == (nceLabels B nv).getD i 0)) && (j != i)) =
            (j != i && !(j % B == i % B)) := by
        intro j hj
        rw [List.mem_range] at hj
        rw [hlabel j hj, Bool.and_comm]
      rw [List.filter_filter, List.filter_congr hc2]
      apply List.map_congr_left
      intro j hj
      have hjN : j < features.length := by
        have := (List.mem_filter.mp hj).1
        rwa [List.mem_range] at this
      rw [hsim j hjN]

/-- Witness for C5 at a concrete feature matrix (two views, batch size 1). -/
theorem C5_info_nce_witness :
    ((infoNceLabelsOut ([[(1 : ℝ), 0], [0, 1]] : List (List ℝ)).length).getD 0 1 = 0 ∧
    (infoNceLogits 1 2 2 [[(1 : ℝ), 0], [0, 1]]).getD 0 [] =
      (((List.range ([[(1 : ℝ), 0], [0, 1]] : List (List ℝ)).length).filter
          (fun j => j != 0 && (j % 1 == 0 % 1))).map
        (fun j => cosineSim [[(1 : ℝ), 0], [0, 1]] 0 j / 2)) ++
      (((List.range ([[(1 : ℝ), 0], [0, 1]] : List (List ℝ)).length).filter
          (fun j => j != 0 && !(j % 1 == 0 % 1))).map
        (fun j => cosineSim [[(1 : ℝ), 0], [0, 1]] 0 j / 2))) :=
  C5_info_nce 1 2 2 [[(1 : ℝ), 0], [0, 1]] rfl
    (by
      intro v hv
      simp only [List.mem_cons, List.not_mem_nil, or_false] at hv
      rcases hv with rfl | rfl
      · rw [show l2norm [(1 : ℝ), 0] = 1 from by simp [l2norm]]
        norm_num
      · rw [show l2norm [(0 : ℝ), 1] = 1 from by simp [l2norm]]
        norm_num)
    0 (by simp)

/-! ## C6: VICReg loss -/

/-- `getD` of a list prefix. -/
theorem getD_take {α : Type} (l : List α) (d : α) (b i : ℕ) (h1 : i < b)
    (h2 : i < l.length) : (l.take b).getD i d = l.getD i d := by
  rw [List.getD_eq_getElem _ _ (by simp [List.length_take]; omega),
    List.getD_eq_getElem _ _ h2]
  rw [List.getElem_take]

/-- `getD` of a list suffix. -/
theorem getD_drop {α : Type} (l : List α) (d : α) (b i : ℕ) (h : b + i < l.length) :
    (l.drop b).getD i d = l.getD (b + i) d := by
  rw [List.getD_eq_getElem _ _ (by simp [List.length_drop]; omega),
    List.getD_eq_getElem _ _ h]
  rw [List.getElem_drop]

/-- Sum over a zip of two lists as a `Finset.range` sum over positions. -/
theorem list_sum_map_zip {α β : Type} (f : α × β → ℝ) (da : α) (db : β) :
    ∀ (u : List α) (v : List β),
      ((u.zip v).map f).sum =
        ∑ i ∈ Finset.range (min u.length v.length), f (u.getD i da, v.getD i db) := by
  intro u
  induction u with
  | nil => intro v; simp
  | cons x t ih =>
      intro v
      cases v with
      | nil => simp
      | cons y w =>
          rw [List.zip_cons_cons, List.map_cons, List.sum_cons, ih w,
            List.length_cons, List.length_cons, Nat.succ_min_succ,
            Finset.sum_range_succ']
          simp [add_comm]

/-- Sum of a flatMap as a sum of sums. -/
theorem list_sum_flatMap (l : List ℕ) (f : ℕ → List ℝ) :
    (l.flatMap f).sum = (l.map (fun a => (f a).sum)).sum := by
  induction l with
  | nil => rfl
  | cons a t ih =>
      rw [List.flatMap_cons, List.sum_append, ih, List.map_cons, List.sum_cons]

/-- Entry of an `enum`-mapped row. -/
theorem enum_map_getD (r : List ℝ) (g : ℕ × ℝ → ℝ) (j : ℕ) (hj : j < r.length) :
    (r.enum.map g).getD j 0 = g (j, r.getD j 0) := by
  have h1 : j < r.enum.length := by simpa using hj
  rw [getD_map_of_lt r.enum g j 0 (0, 0) h1]
  congr 1
  rw [List.getD_eq_getElem _ _ h1, List.getElem_enum,
    List.getD_eq_getElem _ _ hj]

/-- Sum of a shifted list. -/
theorem list_sum_map_sub (l : List ℝ) (c : ℝ) :
    (l.map (fun x => x - c)).sum = l.sum - l.length * c := by
  induction l with
  | nil => simp
  | cons x t ih =>
      simp only [List.map_cons, List.sum_cons, List.length_cons, ih]
      push_cast
      ring

/-- Mean of a shifted list. -/
theorem listMean_map_sub (l : List ℝ) (c : ℝ) (hl : l ≠ []) :
    listMean (l.map (fun x => x - c)) = listMean l - c := by
  have hn0 : l.length ≠ 0 := fun h0 => hl (List.length_eq_zero.mp h0)
  have hn : (l.length : ℝ) ≠ 0 := Nat.cast_ne_zero.mpr hn0
  unfold listMean
  rw [List.length_map, list_sum_map_sub, sub_div]
  congr 1
  rw [mul_comm, mul_div_assoc, div_self hn, mul_one]

/-- Unbiased variance of a mean-centered list. -/
theorem listVar_center (l : List ℝ) (hl : l ≠ []) :
    listVar (l.map (fun x => x - listMean l)) =
      ((l.map (fun x => (x - listMean l) ^ 2)).sum) / ((l.length : ℝ) - 1) := by
  unfold listVar
  rw [listMean_map_sub l (listMean l) hl, sub_self, List.map_map, List.length_map]
  congr 2
  apply List.map_congr_left
  intro x _
  simp

/-- Column `j` of a columnwise-centered matrix is the centered column `j`. -/
theorem colVals_centerCols (z : List (List ℝ)) (d j : ℕ)
    (hrect : ∀ r ∈ z, r.length = d) (hj : j < d) :
    colVals (centerCols z) j =
      (colVals z j).map (fun x => x - listMean (colVals z j)) := by
  unfold colVals centerCols
  rw [List.map_map, List.map_map]
  apply List.map_congr_left
  intro r hr
  simp only [Function.comp]
  rw [enum_map_getD r _ j (by rw [hrect r hr]; exact hj)]
  simp [colVals]

/-- Flattened length of a rectangular matrix. -/
theorem flatten_length_rect (m : List (List ℝ)) (n : ℕ)
    (hrect : ∀ r ∈ m, r.length = n) : m.flatten.length = m.length * n := by
  rw [List.length_flatten, List.map_congr_left hrect, List.map_const',
    List.sum_replicate, smul_eq_mul]

/-- `getD` of `dropLast` at an interior position. -/
theorem getD_dropLast (l : List ℝ) (k : ℕ) (h : k < l.length - 1) :
    l.dropLast.getD k 0 = l.getD k 0 := by
  rw [List.dropLast_eq_take]
  exact getD_take l 0 (l.length - 1) k h (by omega)

/-- Row-major indexing into the flattening of a rectangular matrix. -/
theorem flatten_getD (n : ℕ) (hn : 0 < n) :
    ∀ (m : List (List ℝ)), (∀ r ∈ m, r.length = n) →
      ∀ k, k < m.length * n →
        m.flatten.getD k 0 = (m.getD (k / n) []).getD (k % n) 0 := by
  intro m
  induction m with
  | nil => intro _ k hk; simp at hk
  | cons r t ih =>
      intro hrect k hk
      have hr : r.length = n := hrect r (by simp)
      rw [List.flatten_cons]
      by_cases hkr : k < n
      · rw [List.getD_append _ _ _ _ (by rw [hr]; exact hkr),
          Nat.div_eq_of_lt hkr, Nat.mod_eq_of_lt hkr]
        simp
      · have hklen : k - n < t.length * n := by
          rw [List.length_cons, add_mul, one_mul] at hk
          omega
        rw [List.getD_append_right _ _ _ _ (by rw [hr]; omega), hr,
          ih (fun r2 hr2 => hrect r2 (by simp [hr2])) (k - n) hklen]
        have hdiv : k / n = (k - n) / n + 1 := by
          conv_lhs => rw [show k = (k - n) + n by omega]
          rw [Nat.add_div_right _ hn]
        have hmod : k % n = (k - n) % n := by
          conv_lhs => rw [show k = (k - n) + n by omega]
          rw [Nat.add_mod_right]
        rw [hdiv, hmod]
        simp

/-- Helper: `(n - 1) * (n + 1) + 1 = n * n`. -/
theorem pred_mul_succ_add_one (n : ℕ) (hn : 1 ≤ n) :
    (n - 1) * (n + 1) + 1 = n * n := by
  obtain ⟨m, rfl⟩ : ∃ m, n = m + 1 := ⟨n - 1, by omega⟩
  simp only [Nat.add_sub_cancel]
  ring

/-- A row-major index of an off-diagonal entry is never divisible by `n+1`. -/
theorem offdiag_mod_ne (n q1 q2 : ℕ) (hq1 : q1 < n) (hq2 : q2 < n)
    (hne : q1 ≠ q2) : (q1 * n + q2) % (n + 1) ≠ 0 := by
  intro h0
  have hnpos : 0 < n := by omega
  have hdm := Nat.div_add_mod (q1 * n + q2) (n + 1)
  rw [h0, Nat.add_zero] at hdm
  set s := (q1 * n + q2) / (n + 1) with hs
  have hkqlt : q1 * n + q2 < n * n := by
    have h1 : (q1 + 1) * n ≤ n * n := Nat.mul_le_mul_right n (by omega)
    rw [add_mul, one_mul] at h1
    omega
  have hsn : s < n := by
    have h2 : n * n ≤ n * (n + 1) := Nat.mul_le_mul_left n (by omega)
    rw [hs, Nat.div_lt_iff_lt_mul (by omega : 0 < n + 1)]
    omega
  have hq2mod : (q1 * n + q2) % n = q2 := by
    have e : q1 * n + q2 = q2 + q1 * n := by omega
    rw [e, Nat.add_mul_mod_self_right, Nat.mod_eq_of_lt hq2]
  have hsmod : (q1 * n + q2) % n = s % n := by
    have e2 : (n + 1) * s = s + s * n := by ring
    have e3 : q1 * n + q2 = s + s * n := by omega
    rw [e3, Nat.add_mul_mod_self_right]
  have hq2s : q2 = s := by
    rw [Nat.mod_eq_of_lt hsn] at hsmod
    omega
  have hq1s : q1 = s := by
    have e4 : q1 * n = s * n := by
      have e2 : (n + 1) * s = s * n + s := by ring
      omega
    exact Nat.eq_of_mul_eq_mul_right hnpos e4
  exact hne (by omega)

/-- The sum of squares over `off_diagonal` of an `n × n` matrix equals the sum
of the squared off-diagonal entries: the flatten-slice-view-slice trick
enumerates exactly the entries away from the main diagonal. -/
theorem offDiagonal_sum_sq (m : List (List ℝ)) (n : ℕ) (hn : m.length = n)
    (hrect : ∀ r ∈ m, r.length = n) :
    ((offDiagonal m).map (fun x => x ^ 2)).sum =
      ∑ p ∈ (Finset.range n ×ˢ Finset.range n).filter (fun p => p.1 ≠ p.2),
        ((m.getD p.1 []).getD p.2 0) ^ 2 := by
  have hflen : m.flatten.length = n * n := by
    rw [flatten_length_rect m n hrect, hn]
  unfold offDiagonal
  rw [hn, List.map_flatMap, list_sum_flatMap, list_sum_map_range]
  have hinner : ∀ r ∈ Finset.range (n - 1),
      (((List.range n).map (fun c =>
          (m.flatten.dropLast).getD (r * (n + 1) + (c + 1)) 0)).map
        (fun x => x ^ 2)).sum =
        ∑ c ∈ Finset.range n,
          ((m.flatten.dropLast).getD (r * (n + 1) + (c + 1)) 0) ^ 2 := by
    intro r _
    rw [List.map_map, list_sum_map_range]
    rfl
  rw [Finset.sum_congr rfl hinner, ← Finset.sum_product']
  apply Finset.sum_nbij'
    (fun p : ℕ × ℕ => ((p.1 * (n + 1) + (p.2 + 1)) / n, (p.1 * (n + 1) + (p.2 + 1)) % n))
    (fun q : ℕ × ℕ => ((q.1 * n + q.2) / (n + 1), (q.1 * n + q.2) % (n + 1) - 1))
  · -- forward map lands in the off-diagonal index set
    intro p hp
    rw [Finset.mem_product, Finset.mem_range, Finset.mem_range] at hp
    obtain ⟨hp1, hp2⟩ := hp
    have hn2 : 2 ≤ n := by omega
    have hb1 : (p.1 + 1) * (n + 1) ≤ (n - 1) * (n + 1) :=
      Nat.mul_le_mul_right (n + 1) (by omega)
    rw [add_mul, one_mul] at hb1
    have hb2 : (n - 1) * (n + 1) + 1 = n * n := pred_mul_succ_add_one n (by omega)
    have hklt : p.1 * (n + 1) + (p.2 + 1) + 1 < n * n := by omega
    have hmodsucc : (p.1 * (n + 1) + (p.2 + 1)) % (n + 1) = p.2 + 1 := by
      have e : p.1 * (n + 1) + (p.2 + 1) = (p.2 + 1) + (n + 1) * p.1 := by ring
      rw [e, Nat.add_mul_mod_self_left, Nat.mod_eq_of_lt (by omega)]
    rw [Finset.mem_filter, Finset.mem_product, Finset.mem_range, Finset.mem_range]
    refine ⟨⟨?_, ?_⟩, ?_⟩
    · rw [Nat.div_lt_iff_lt_mul (by omega : 0 < n)]
      omega
    · exact Nat.mod_lt _ (by omega)
    · dsimp only
      intro heq
      have hdm := Nat.div_add_mod (p.1 * (n + 1) + (p.2 + 1)) n
      set t := (p.1 * (n + 1) + (p.2 + 1)) % n with ht
      have e5 : t * (n + 1) = n * t + t := by ring
      have e6 : p.1 * (n + 1) + (p.2 + 1) = t * (n + 1) := by
        simp only [heq] at hdm
        omega
      have : (p.1 * (n + 1) + (p.2 + 1)) % (n + 1) = 0 := by
        rw [e6, Nat.mul_mod_left]
      omega
  · -- backward map lands in the strip index set
    intro q hq
    rw [Finset.mem_filter, Finset.mem_product, Finset.mem_range, Finset.mem_range] at hq
    obtain ⟨⟨hq1, hq2⟩, hqne⟩ := hq
    have hn2 : 2 ≤ n := by omega
    have hmodne := offdiag_mod_ne n q.1 q.2 hq1 hq2 hqne
    have hkqlt : q.1 * n + q.2 < n * n := by
      have h1 : (q.1 + 1) * n ≤ n * n := Nat.mul_le_mul_right n (by omega)
      rw [add_mul, one_mul] at h1
      omega
    have hb2 : (n - 1) * (n + 1) + 1 = n * n := pred_mul_succ_add_one n (by omega)
    have hkne : q.1 * n + q.2 ≠ (n - 1) * (n + 1) := by
      intro h
      exact hmodne (by rw [h, Nat.mul_mod_left])
    rw [Finset.mem_product, Finset.mem_range, Finset.mem_range]
    constructor
    · rw [Nat.div_lt_iff_lt_mul (by omega : 0 < n + 1)]
      omega
    · have := Nat.mod_lt (q.1 * n + q.2) (by omega : 0 < n + 1)
      omega
  · -- left inverse
    intro p hp
    rw [Finset.mem_product, Finset.mem_range, Finset.mem_range] at hp
    obtain ⟨hp1, hp2⟩ := hp
    have hn2 : 2 ≤ n := by omega
    have hdm := Nat.div_add_mod (p.1 * (n + 1) + (p.2 + 1)) n
    have hrecon : ((p.1 * (n + 1) + (p.2 + 1)) / n) * n +
        (p.1 * (n + 1) + (p.2 + 1)) % n = p.1 * (n + 1) + (p.2 + 1) := by
      have e : ((p.1 * (n + 1) + (p.2 + 1)) / n) * n =
          n * ((p.1 * (n + 1) + (p.2 + 1)) / n) := by ring
      omega
    have e1 : p.1 * (n + 1) + (p.2 + 1) = (p.2 + 1) + (n + 1) * p.1 := by ring
    have hdivk : (p.1 * (n + 1) + (p.2 + 1)) / (n + 1) = p.1 := by
      rw [e1, Nat.add_mul_div_left _ _ (by omega : 0 < n + 1),
        Nat.div_eq_of_lt (by omega), Nat.zero_add]
    have hmodk : (p.1 * (n + 1) + (p.2 + 1)) % (n + 1) = p.2 + 1 := by
      rw [e1, Nat.add_mul_mod_self_left, Nat.mod_eq_of_lt (by omega)]
    rw [hrecon, hdivk, hmodk]
    simp
  · -- right inverse
    intro q hq
    rw [Finset.mem_filter, Finset.mem_product, Finset.mem_range, Finset.mem_range] at hq
    obtain ⟨⟨hq1, hq2⟩, hqne⟩ := hq
    have hmodne := offdiag_mod_ne n q.1 q.2 hq1 hq2 hqne
    have hdm := Nat.div_add_mod (q.1 * n + q.2) (n + 1)
    have hrecon : ((q.1 * n + q.2) / (n + 1)) * (n + 1) +
        ((q.1 * n + q.2) % (n + 1) - 1 + 1) = q.1 * n + q.2 := by
      have e : ((q.1 * n + q.2) / (n + 1)) * (n + 1) =
          (n + 1) * ((q.1 * n + q.2) / (n + 1)) := by ring
      omega
    have e1 : q.1 * n + q.2 = q.2 + n * q.1 := by ring
    have hdivk : (q.1 * n + q.2) / n = q.1 := by
      rw [e1, Nat.add_mul_div_left _ _ (by omega : 0 < n),
        Nat.div_eq_of_lt hq2, Nat.zero_add]
    have hmodk : (q.1 * n + q.2) % n = q.2 := by
      rw [e1, Nat.add_mul_mod_self_left, Nat.mod_eq_of_lt hq2]
    rw [hrecon, hdivk, hmodk]
  · -- the summed values agree
    intro p hp
    rw [Finset.mem_product, Finset.mem_range, Finset.mem_range] at hp
    obtain ⟨hp1, hp2⟩ := hp
    have hn2 : 2 ≤ n := by omega
    have hb1 : (p.1 + 1) * (n + 1) ≤ (n - 1) * (n + 1) :=
      Nat.mul_le_mul_right (n + 1) (by omega)
    rw [add_mul, one_mul] at hb1
    have hb2 : (n - 1) * (n + 1) + 1 = n * n := pred_mul_succ_add_one n (by omega)
    have hklt : p.1 * (n + 1) + (p.2 + 1) + 1 < n * n := by omega
    rw [getD_dropLast _ _ (by rw [hflen]; omega),
      flatten_getD n (by omega) m hrect _ (by rw [hn]; omega)]

/-- Length of a column. -/
theorem colVals_length (z : List (List ℝ)) (j : ℕ) :
    (colVals z j).length = z.length := by
  unfold colVals
  exact List.length_map z _

/-- Entry of a column. -/
theorem colVals_getD (z : List (List ℝ)) (j i : ℕ) (hi : i < z.length) :
    (colVals z j).getD i 0 = (z.getD i []).getD j 0 := by
  unfold colVals
  exact getD_map_of_lt z _ i 0 [] hi

/-- Mean of a column as a `Finset.range` sum. -/
theorem colVals_mean (z : List (List ℝ)) (j : ℕ) :
    listMean (colVals z j) =
      (∑ i ∈ Finset.range z.length, (z.getD i []).getD j 0) / (z.length : ℝ) := by
  unfold listMean
  rw [colVals_length]
  congr 1
  unfold colVals
  rw [list_sum_map_getD z _ []]

/-- Centering keeps the number of rows. -/
theorem centerCols_length (z : List (List ℝ)) : (centerCols z).length = z.length := by
  unfold centerCols
  exact List.length_map z _

/-- Entry of a centered column. -/
theorem colVals_center_getD (z : List (List ℝ)) (d j : ℕ)
    (hrect : ∀ r ∈ z, r.length = d) (hj : j < d) (i : ℕ) (hi : i < z.length) :
    (colVals (centerCols z) j).getD i 0 =
      (z.getD i []).getD j 0 -
        (∑ i2 ∈ Finset.range z.length, (z.getD i2 []).getD j 0) / (z.length : ℝ) := by
  rw [colVals_centerCols z d j hrect hj,
    getD_map_of_lt (colVals z j) _ i 0 0 (by rw [colVals_length]; exact hi),
    colVals_getD z j i hi, colVals_mean z j]

/-- Unbiased variance of a centered column as a `Finset.range` sum. -/
theorem half_var (z : List (List ℝ)) (d j : ℕ) (hz : z ≠ [])
    (hrect : ∀ r ∈ z, r.length = d) (hj : j < d) :
    listVar (colVals (centerCols z) j) =
      (∑ i ∈ Finset.range z.length,
        ((z.getD i []).getD j 0 -
          (∑ i2 ∈ Finset.range z.length, (z.getD i2 []).getD j 0) /
            (z.length : ℝ)) ^ 2) / ((z.length : ℝ) - 1) := by
  have hcne : colVals z j ≠ [] := by
    unfold colVals
    simpa using hz
  rw [colVals_centerCols z d j hrect hj, listVar_center _ hcne,
    list_sum_map_getD (colVals z j) _ 0, colVals_length]
  congr 1
  apply Finset.sum_congr rfl
  intro i hi
  rw [Finset.mem_range] at hi
  rw [colVals_getD z j i hi, colVals_mean z j]

/-- Entry `(j, k)` of the covariance matrix of the centered rows. -/
theorem half_cov_entry (z : List (List ℝ)) (d j k : ℕ)
    (hrect : ∀ r ∈ z, r.length = d) (hj : j < d) (hk : k < d) :
    ((covMat (centerCols z) d).getD j []).getD k 0 =
      (∑ i ∈ Finset.range z.length,
        ((z.getD i []).getD j 0 -
          (∑ i2 ∈ Finset.range z.length, (z.getD i2 []).getD j 0) / (z.length : ℝ)) *
        ((z.getD i []).getD k 0 -
          (∑ i2 ∈ Finset.range z.length, (z.getD i2 []).getD k 0) / (z.length : ℝ))) /
        ((z.length : ℝ) - 1) := by
  have hrj : (List.range d).getD j 0 = j := by
    rw [List.getD_eq_getElem _ _ (by simpa using hj)]
    simp
  have hrk : (List.range d).getD k 0 = k := by
    rw [List.getD_eq_getElem _ _ (by simpa using hk)]
    simp
  unfold covMat
  rw [getD_map_of_lt _ _ j [] 0 (by simpa using hj), hrj,
    getD_map_of_lt _ _ k 0 0 (by simpa using hk), hrk, centerCols_length,
    list_sum_map_zip _ 0 0, colVals_length, colVals_length, centerCols_length,
    Nat.min_self]
  congr 1
  apply Finset.sum_congr rfl
  intro i hi
  rw [Finset.mem_range] at hi
  rw [colVals_center_getD z d j hrect hj i hi,
    colVals_center_getD z d k hrect hk i hi]

/-- Sum of squared off-diagonal covariance entries of the centered rows. -/
theorem half_cov_sum (z : List (List ℝ)) (d : ℕ)
    (hrect : ∀ r ∈ z, r.length = d) :
    ((offDiagonal (covMat (centerCols z) d)).map (fun x => x ^ 2)).sum =
      ∑ p ∈ (Finset.range d ×ˢ Finset.range d).filter (fun p => p.1 ≠ p.2),
        ((∑ i ∈ Finset.range z.length,
          ((z.getD i []).getD p.1 0 -
            (∑ i2 ∈ Finset.range z.length, (z.getD i2 []).getD p.1 0) /
              (z.length : ℝ)) *
          ((z.getD i []).getD p.2 0 -
            (∑ i2 ∈ Finset.range z.length, (z.getD i2 []).getD p.2 0) /
              (z.length : ℝ))) / ((z.length : ℝ) - 1)) ^ 2 := by
  have hl : (covMat (centerCols z) d).length = d := by
    simp [covMat]
  have hr2 : ∀ r ∈ covMat (centerCols z) d, r.length = d := by
    intro r hr
    simp only [covMat, List.mem_map] at hr
    obtain ⟨j, _, rfl⟩ := hr
    simp
  rw [offDiagonal_sum_sq _ d hl hr2]
  apply Finset.sum_congr rfl
  intro p hp
  rw [Finset.mem_filter, Finset.mem_product, Finset.mem_range, Finset.mem_range] at hp
  rw [half_cov_entry z d p.1 p.2 hrect hp.1.1 hp.1.2]

/-- C6: for an even number of rows, `vicReg_loss` splits the batch into two
equal halves and returns `lambda_vicReg_pos` times the mean squared error
between the halves, plus `lambda_vicReg_std` times the sum over both halves of
`mean(relu(1 - sqrt(columnwise variance + 0.0001)))/2`, plus
`lambda_vicReg_cov` times the sum over both mean-centered halves of the
squared off-diagonal entries of `zᵀz/(b-1)` divided by the feature
dimension. -/
theorem C6_vicreg_loss (lamPos lamStd lamCov : ℝ) (features : List (List ℝ))
    (b d : ℕ) (hb : 1 ≤ b) (hlen : features.length = 2 * b)
    (hrect : ∀ r ∈ features, r.length = d) :
    vicRegLoss lamPos lamStd lamCov features =
      vicRegLossSpec lamPos lamStd lamCov b d features := by
  have hbdiv : features.length / 2 = b := by rw [hlen]; omega
  have h0len : 0 < features.length := by omega
  have hfmem : ∀ i, i < features.length → features.getD i [] ∈ features := by
    intro i hi
    rw [List.getD_eq_getElem _ _ hi]
    exact List.getElem_mem hi
  have hdim : (features.getD 0 []).length = d := hrect _ (hfmem 0 h0len)
  have hz1len : (features.take b).length = b := by
    rw [List.length_take, hlen]; omega
  have hz2len : (features.drop b).length = b := by
    rw [List.length_drop, hlen]; omega
  have hz1rect : ∀ r ∈ features.take b, r.length = d :=
    fun r hr => hrect r (List.mem_of_mem_take hr)
  have hz2rect : ∀ r ∈ features.drop b, r.length = d :=
    fun r hr => hrect r (List.mem_of_mem_drop hr)
  have hz1ne : features.take b ≠ [] := by
    intro h
    have := congrArg List.length h
    rw [hz1len] at this
    simp at this
    omega
  have hz2ne : features.drop b ≠ [] := by
    intro h
    have := congrArg List.length h
    rw [hz2len] at this
    simp at this
    omega
  have hz1get : ∀ i, i < b → (features.take b).getD i [] = features.getD i [] :=
    fun i hi => getD_take features [] b i hi (by omega)
  have hz2get : ∀ i, i < b → (features.drop b).getD i [] = features.getD (b + i) [] :=
    fun i hi => getD_drop features [] b i (by omega)
  have hz1sum : ∀ j, (∑ i2 ∈ Finset.range b, ((features.take b).getD i2 []).getD j 0) =
      ∑ i2 ∈ Finset.range b, (features.getD i2 []).getD j 0 :=
    fun j => Finset.sum_congr rfl
      (fun i2 hi2 => by rw [hz1get i2 (Finset.mem_range.mp hi2)])
  have hz2sum : ∀ j, (∑ i2 ∈ Finset.range b, ((features.drop b).getD i2 []).getD j 0) =
      ∑ i2 ∈ Finset.range b, (features.getD (b + i2) []).getD j 0 :=
    fun j => Finset.sum_congr rfl
      (fun i2 hi2 => by rw [hz2get i2 (Finset.mem_range.mp hi2)])
  have hmeanrange : ∀ (g : ℕ → ℝ), listMean ((List.range d).map g) =
      (∑ j ∈ Finset.range d, g j) / (d : ℝ) := by
    intro g
    unfold listMean
    rw [list_sum_map_range, List.length_map, List.length_range]
  -- mean squared error between the halves
  have hmse : mseLoss (features.take b) (features.drop b) =
      (∑ i ∈ Finset.range b, ∑ j ∈ Finset.range d,
        ((features.getD i []).getD j 0 - (features.getD (b + i) []).getD j 0) ^ 2) /
        ((b : ℝ) * (d : ℝ)) := by
    unfold mseLoss
    rw [list_sum_map_zip _ [] [], hz1len, hz2len, Nat.min_self]
    have hden : ((features.take b).map List.length).sum = b * d := by
      rw [List.map_congr_left hz1rect, List.map_const', List.sum_replicate,
        smul_eq_mul, hz1len]
    rw [hden]
    push_cast
    congr 1
    apply Finset.sum_congr rfl
    intro i hi
    rw [Finset.mem_range] at hi
    show ((((features.take b).getD i []).zip ((features.drop b).getD i [])).map
        (fun p => (p.1 - p.2) ^ 2)).sum = _
    rw [hz1get i hi, hz2get i hi, list_sum_map_zip _ 0 0,
      hrect _ (hfmem i (by omega)), hrect _ (hfmem (b + i) (by omega)),
      Nat.min_self]
  -- std terms per half
  have hstd1 : listMean (((List.range d).map (fun j =>
      Real.sqrt (listVar (colVals (centerCols (features.take b)) j) + 0.0001))).map
        (fun s => relu (1 - s))) =
      (∑ j ∈ Finset.range d, relu (1 - Real.sqrt (
        (∑ i ∈ Finset.range b, ((features.getD i []).getD j 0 -
          (∑ i2 ∈ Finset.range b, (features.getD i2 []).getD j 0) / (b : ℝ)) ^ 2) /
          ((b : ℝ) - 1) + 0.0001))) / (d : ℝ) := by
    rw [List.map_map, hmeanrange]
    congr 1
    apply Finset.sum_congr rfl
    intro j hj
    rw [Finset.mem_range] at hj
    show relu (1 - Real.sqrt (listVar (colVals (centerCols (features.take b)) j) +
      0.0001)) = _
    rw [half_var (features.take b) d j hz1ne hz1rect hj, hz1len, hz1sum j]
    have hX : (∑ i ∈ Finset.range b, (((features.take b).getD i []).getD j 0 -
        (∑ i2 ∈ Finset.range b, (features.getD i2 []).getD j 0) / (b : ℝ)) ^ 2) =
        ∑ i ∈ Finset.range b, ((features.getD i []).getD j 0 -
        (∑ i2 ∈ Finset.range b, (features.getD i2 []).getD j 0) / (b : ℝ)) ^ 2 :=
      Finset.sum_congr rfl (fun i hi => by rw [hz1get i (Finset.mem_range.mp hi)])
    rw [hX]
  have hstd2 : listMean (((List.range d).map (fun j =>
      Real.sqrt (listVar (colVals (centerCols (features.drop b)) j) + 0.0001))).map
        (fun s => relu (1 - s))) =
      (∑ j ∈ Finset.range d, relu (1 - Real.sqrt (
        (∑ i ∈ Finset.range b, ((features.getD (b + i) []).getD j 0 -
          (∑ i2 ∈ Finset.range b, (features.getD (b + i2) []).getD j 0) / (b : ℝ)) ^ 2) /
          ((b : ℝ) - 1) + 0.0001))) / (d : ℝ) := by
    rw [List.map_map, hmeanrange]
    congr 1
    apply Finset.sum_congr rfl
    intro j hj
    rw [Finset.mem_range] at hj
    show relu (1 - Real.sqrt (listVar (colVals (centerCols (features.drop b)) j) +
      0.0001)) = _
    rw [half_var (features.drop b) d j hz2ne hz2rect hj, hz2len, hz2sum j]
    have hX : (∑ i ∈ Finset.range b, (((features.drop b).getD i []).getD j 0 -
        (∑ i2 ∈ Finset.range b, (features.getD (b + i2) []).getD j 0) / (b : ℝ)) ^ 2) =
        ∑ i ∈ Finset.range b, ((features.getD (b + i) []).getD j 0 -
        (∑ i2 ∈ Finset.range b, (features.getD (b + i2) []).getD j 0) / (b : ℝ)) ^ 2 :=
      Finset.sum_congr rfl (fun i hi => by rw [hz2get i (Finset.mem_range.mp hi)])
    rw [hX]
  -- covariance terms per half
  have hcov1 : ((offDiagonal (covMat (centerCols (features.take b)) d)).map
      (fun x => x ^ 2)).sum =
      ∑ p ∈ (Finset.range d ×ˢ Finset.range d).filter (fun p => p.1 ≠ p.2),
        ((∑ i ∈ Finset.range b, ((features.getD i []).getD p.1 0 -
          (∑ i2 ∈ Finset.range b, (features.getD i2 []).getD p.1 0) / (b : ℝ)) *
          ((features.getD i []).getD p.2 0 -
          (∑ i2 ∈ Finset.range b, (features.getD i2 []).getD p.2 0) / (b : ℝ))) /
          ((b : ℝ) - 1)) ^ 2 := by
    rw [half_cov_sum (features.take b) d hz1rect, hz1len]
    apply Finset.sum_congr rfl
    intro p hp
    rw [hz1sum p.1, hz1sum p.2]
    have hS : (∑ i ∈ Finset.range b, (((features.take b).getD i []).getD p.1 0 -
        (∑ i2 ∈ Finset.range b, (features.getD i2 []).getD p.1 0) / (b : ℝ)) *
        (((features.take b).getD i []).getD p.2 0 -
        (∑ i2 ∈ Finset.range b, (features.getD i2 []).getD p.2 0) / (b : ℝ))) =
        ∑ i ∈ Finset.range b, ((features.getD i []).getD p.1 0 -
        (∑ i2 ∈ Finset.range b, (features.getD i2 []).getD p.1 0) / (b : ℝ)) *
        ((features.getD i []).getD p.2 0 -
        (∑ i2 ∈ Finset.range b, (features.getD i2 []).getD p.2 0) / (b : ℝ)) :=
      Finset.sum_congr rfl (fun i hi => by rw [hz1get i (Finset.mem_range.mp hi)])
    rw [hS]
  have hcov2 : ((offDiagonal (covMat (centerCols (features.drop b)) d)).map
      (fun x => x ^ 2)).sum =
      ∑ p ∈ (Finset.range d ×ˢ Finset.range d).filter (fun p => p.1 ≠ p.2),
        ((∑ i ∈ Finset.range b, ((features.getD (b + i) []).getD p.1 0 -
          (∑ i2 ∈ Finset.range b, (features.getD (b + i2) []).getD p.1 0) / (b : ℝ)) *
          ((features.getD (b + i) []).getD p.2 0 -
          (∑ i2 ∈ Finset.range b, (features.getD (b + i2) []).getD p.2 0) / (b : ℝ))) /
          ((b : ℝ) - 1)) ^ 2 := by
    rw [half_cov_sum (features.drop b) d hz2rect, hz2len]
    apply Finset.sum_congr rfl
    intro p hp
    rw [hz2sum p.1, hz2sum p.2]
    have hS : (∑ i ∈ Finset.range b, (((features.drop b).getD i []).getD p.1 0 -
        (∑ i2 ∈ Finset.range b, (features.getD (b + i2) []).getD p.1 0) / (b : ℝ)) *
        (((features.drop b).getD i []).getD p.2 0 -
        (∑ i2 ∈ Finset.range b, (features.getD (b + i2) []).getD p.2 0) / (b : ℝ))) =
        ∑ i ∈ Finset.range b, ((features.getD (b + i) []).getD p.1 0 -
        (∑ i2 ∈ Finset.range b, (features.getD (b + i2) []).getD p.1 0) / (b : ℝ)) *
        ((features.getD (b + i) []).getD p.2 0 -
        (∑ i2 ∈ Finset.range b, (features.getD (b + i2) []).getD p.2 0) / (b : ℝ)) :=
      Finset.sum_congr rfl (fun i hi => by rw [hz2get i (Finset.mem_range.mp hi)])
    rw [hS]
  simp only [vicRegLoss, vicRegLossSpec]
  rw [hbdiv, hdim, hmse, hstd1, hstd2, hcov1, hcov2]

/-- Witness for C6 at a concrete 4 × 1 feature matrix. -/
theorem C6_vicreg_loss_witness :
    vicRegLoss 1 2 3 [[(1 : ℝ)], [2], [3], [4]] =
      vicRegLossSpec 1 2 3 2 1 [[(1 : ℝ)], [2], [3], [4]] :=
  C6_vicreg_loss 1 2 3 [[(1 : ℝ)], [2], [3], [4]] 2 1 (by decide) (by simp)
    (by
      intro r hr
      simp only [List.mem_cons, List.not_mem_nil, or_false] at hr
      rcases hr with rfl | rfl | rfl | rfl <;> rfl)

end LowRankReg
